import Mathlib

/-!
Verification of the audio-analysis pipeline in `src/services/analysisService.ts`.

Samples are modelled as real numbers (`List ℝ`); the JavaScript number
arithmetic of the source is embedded as exact real arithmetic.  Each
definition carries a comment pointing at the source lines it embeds.
-/

open scoped Classical

noncomputable section

namespace FinalSignals

/-! ## Definitions -/

/-- Peak scan of `normalizeBuffer` (analysisService.ts lines 8-11):
`if (Math.abs(input[i]) > maxPeak) maxPeak = Math.abs(input[i])`, starting from 0. -/
def maxPeak (input : List ℝ) : ℝ :=
  input.foldl (fun m s => if |s| > m then |s| else m) 0

/-- `normalizeBuffer` (lines 5-15): `scalar = maxPeak > 0 ? 0.95 / maxPeak : 1`,
then every sample is multiplied by `scalar`. -/
def normalizeBuffer (input : List ℝ) : List ℝ :=
  let scalar := if maxPeak input > 0 then 0.95 / maxPeak input else 1
  input.map (fun s => s * scalar)

/-- Offsets visited by the frame loop (line 85):
`for (let i = 0; i < data.length - FFT_SIZE; i += HOP_SIZE)` with
`FFT_SIZE = 2048`, `HOP_SIZE = 1024`. -/
def frameLoop (len i : ℕ) : List ℕ :=
  if h : i + 2048 < len then i :: frameLoop len (i + 1024) else []
termination_by len - i
decreasing_by omega

def frameStarts (len : ℕ) : List ℕ := frameLoop len 0

/-- `data.slice(i, i + FFT_SIZE)` for each visited offset (line 86). -/
def frames (data : List ℝ) : List (List ℝ) :=
  (frameStarts data.length).map (fun i => (data.drop i).take 2048)

/-- Frame RMS (lines 89-91): `Math.sqrt(sumSq / FFT_SIZE)`. -/
def rmsOf (chunk : List ℝ) : ℝ :=
  Real.sqrt ((chunk.map (fun s => s * s)).sum / 2048)

def frameRMS (data : List ℝ) : List ℝ := (frames data).map rmsOf

/-- Running minimum of qualifying frame RMS values (lines 82 and 94):
`minGlobalRMS` starts at 1.0 and is lowered by frames with
`rms > 0.00001 && rms < minGlobalRMS`. -/
def minGlobalRMS (data : List ℝ) : ℝ :=
  (frameRMS data).foldl (fun m r => if r > 1e-5 ∧ r < m then r else m) 1

/-- Noise floor (line 142): `20 * Math.log10(minGlobalRMS + 1e-9)`. -/
def noiseFloorDb (data : List ℝ) : ℝ :=
  20 * Real.logb 10 (minGlobalRMS data + 1e-9)

/-- One step of the zero-run scan (lines 156-165); the state is the pair
`(zeroRunCount, maxZeroRun)`. -/
def zeroRunStep (p : ℕ × ℕ) (s : ℝ) : ℕ × ℕ :=
  if s = 0 then (p.1 + 1, p.2) else (0, if p.1 > p.2 then p.1 else p.2)

/-- `maxZeroRun` after scanning the whole signal (lines 156-165).  Note the
source never folds the run still open at the end of the signal into the
maximum. -/
def maxZeroRun (data : List ℝ) : ℕ := (data.foldl zeroRunStep (0, 0)).2

/-- `hasDigitalSilence = maxZeroRun > 1000` (line 166). -/
def hasDigitalSilence (data : List ℝ) : Bool := decide (maxZeroRun data > 1000)

/-- Longest contiguous run of exactly-zero samples as the spec words it
("scan the raw normalized samples for the longest contiguous run of exactly
zero-valued samples"): the same scan, but the run still open when the signal
ends also counts.  Comparison definition used to state claim C1's divergence. -/
def specLongestZeroRun (data : List ℝ) : ℕ :=
  let p := data.foldl zeroRunStep (0, 0)
  max p.2 p.1

/-- Twiddle factor of the FFT butterfly (lines 38-40): the complex number
with real part `cos angle` and imaginary part `sin angle`, `angle = -2πk/n`. -/
def twiddle (n k : ℕ) : ℂ :=
  ⟨Real.cos (-2 * Real.pi * k / n), Real.sin (-2 * Real.pi * k / n)⟩

/-- Recursive radix-2 Cooley-Tukey `fft` (lines 18-48) on arrays of length
`2 ^ k`, embedded as a map on index functions: split into even and odd index
sub-arrays, recurse on the halves, then combine with the twiddle factor,
writing the butterfly outputs at indices `j` and `j + 2 ^ k`. -/
def fft : ℕ → (ℕ → ℂ) → ℕ → ℂ
  | 0, x, j => x j
  | k + 1, x, j =>
    if j < 2 ^ k then
      fft k (fun i => x (2 * i)) j +
        twiddle (2 ^ (k + 1)) j * fft k (fun i => x (2 * i + 1)) j
    else
      fft k (fun i => x (2 * i)) (j - 2 ^ k) -
        twiddle (2 ^ (k + 1)) (j - 2 ^ k) * fft k (fun i => x (2 * i + 1)) (j - 2 ^ k)

/-- The discrete Fourier transform as the spec words it: bin `k` is
`Σ_j x[j]·exp(-2πi·j·k/n)`.  Refinement target for claim C4; the FFT of the
source is proved equal to it. -/
def dftSpec (n : ℕ) (x : ℕ → ℂ) (k : ℕ) : ℂ :=
  ∑ j ∈ Finset.range n, x j * Complex.exp (-2 * Real.pi * Complex.I * j * k / n)

/-- Hanning window coefficient (line 55): `0.5 * (1 - cos(2πi/(n-1)))`. -/
def hann (n i : ℕ) : ℝ := 0.5 * (1 - Real.cos (2 * Real.pi * i / ((n : ℝ) - 1)))

/-- The windowed frame fed to the FFT (lines 54-57), with zero imaginary part. -/
def windowedFrame (n : ℕ) (x : ℕ → ℝ) : ℕ → ℂ := fun i => ((x i * hann n i : ℝ) : ℂ)

/-- `getMagnitudeSpectrum` (lines 50-61) on a frame of length `2 ^ k`:
Hanning windowing, FFT, then `mag[j] = sqrt(re² + im²)` for the lower half
`j < n/2` only. -/
def getMagnitudeSpectrum (k : ℕ) (x : ℕ → ℝ) : List ℝ :=
  (List.range (2 ^ k / 2)).map fun j => Complex.abs (fft k (windowedFrame (2 ^ k) x) j)

/-- Magnitude spectrum of one 2048-sample chunk of the analysis loop
(line 98); `2048 = 2 ^ 11`. -/
def frameSpectrum (chunk : List ℝ) : List ℝ :=
  getMagnitudeSpectrum 11 (fun i => chunk.getD i 0)

/-- Rolloff accumulation loop (lines 104-114): first index at which the
accumulated energy reaches the threshold; the result stays 0 when the loop
finishes without reaching it. -/
def rolloffLoop (threshold : ℝ) : List ℝ → ℝ → ℕ → ℕ
  | [], _, _ => 0
  | m :: rest, accum, j =>
    if accum + m ≥ threshold then j else rolloffLoop threshold rest (accum + m) (j + 1)

/-- Spectral rolloff bin (lines 100-114), `thresholdEnergy = 0.85 * totalEnergy`. -/
def rolloffBin (spectrum : List ℝ) : ℕ :=
  rolloffLoop (0.85 * spectrum.sum) spectrum 0 0

/-- `weightedSum` of the spectral centroid (line 119): `Σ j * mag[j]`. -/
def weightedSum (spectrum : List ℝ) : ℝ :=
  (List.zipWith (fun (j : ℕ) m => (j : ℝ) * m) (List.range spectrum.length) spectrum).sum

/-- Spectral centroid (line 120): `weightedSum / (totalEnergy + 1e-4) * BIN_WIDTH`
with `BIN_WIDTH = sampleRate / 2048`. -/
def centroidOf (sampleRate : ℝ) (spectrum : List ℝ) : ℝ :=
  weightedSum spectrum / (spectrum.sum + 1e-4) * (sampleRate / 2048)

/-- Spectral flatness of one spectrum (lines 125-135):
`exp(logSum / n) / (sumMag / n + 1e-10)` over the values `mag[j] + 1e-10`. -/
def flatnessOf (spectrum : List ℝ) : ℝ :=
  Real.exp ((spectrum.map (fun m => Real.log (m + 1e-10))).sum / spectrum.length) /
    ((spectrum.map (fun m => m + 1e-10)).sum / spectrum.length + 1e-10)

/-- Rolloff values of the gated frames (lines 97-115): only frames with
`rms > 0.01` contribute `rolloffBin * BIN_WIDTH`. -/
def frameRolloffs (sampleRate : ℝ) (data : List ℝ) : List ℝ :=
  (frames data).filterMap fun chunk =>
    if rmsOf chunk > 0.01 then
      some ((rolloffBin (frameSpectrum chunk) : ℝ) * (sampleRate / 2048))
    else none

/-- Centroid values of the gated frames (lines 117-121). -/
def frameCentroids (sampleRate : ℝ) (data : List ℝ) : List ℝ :=
  (frames data).filterMap fun chunk =>
    if rmsOf chunk > 0.01 then some (centroidOf sampleRate (frameSpectrum chunk)) else none

/-- JavaScript's `length || 1` divisor fallback (lines 147-152). -/
def orOne (n : ℕ) : ℕ := if n = 0 then 1 else n

/-- `avgRolloff` (line 147). -/
def avgRolloff (sampleRate : ℝ) (data : List ℝ) : ℝ :=
  (frameRolloffs sampleRate data).sum / (orOne (frameRolloffs sampleRate data).length : ℝ)

/-- `varRolloff` (line 148): population variance with the same fallback. -/
def varRolloff (sampleRate : ℝ) (data : List ℝ) : ℝ :=
  ((frameRolloffs sampleRate data).map
      (fun b => (b - avgRolloff sampleRate data) ^ 2)).sum /
    (orOne (frameRolloffs sampleRate data).length : ℝ)

/-- `stdRolloff` (line 149). -/
def stdRolloff (sampleRate : ℝ) (data : List ℝ) : ℝ :=
  Real.sqrt (varRolloff sampleRate data)

/-- `avgCentroid` (line 152). -/
def avgCentroid (sampleRate : ℝ) (data : List ℝ) : ℝ :=
  (frameCentroids sampleRate data).sum / (orOne (frameCentroids sampleRate data).length : ℝ)

/-- The aggregated statistics consumed by the classification scoring
(lines 141-213). -/
structure GlobalStats where
  avgRolloff : ℝ
  stdRolloff : ℝ
  noiseFloorDb : ℝ
  hasDigitalSilence : Bool
  rmsCV : ℝ

/-- Classification score (lines 170-218), written as the source's sequential
updates of the mutable `score` variable. -/
def classifierScore (st : GlobalStats) : ℤ :=
  let s0 : ℤ := 0
  let s1 := if st.avgRolloff < 17000 then
      (if st.noiseFloorDb < -75 ∨ st.hasDigitalSilence then s0 + 40 else s0 - 30)
    else s0 - 10
  let s2 := if st.stdRolloff < 200 then s1 + 35 else s1 - 20
  let s3 := if st.hasDigitalSilence then s2 + 25 else s2
  let s4 := if st.rmsCV < 0.4 then s3 + 15 else s3
  s4

/-- `isAI = score > 35` (line 223). -/
def isAI (st : GlobalStats) : Bool := decide (classifierScore st > 35)

/-- `confidence = 60 + Math.min(39, Math.abs(score))` (line 226). -/
def confidenceReal (st : GlobalStats) : ℝ :=
  60 + min 39 |(classifierScore st : ℝ)|

/-- `Math.round(confidence)` (line 234). -/
def confidence (st : GlobalStats) : ℤ := round (confidenceReal st)

/-- A tiny heap of sample buffers, used to state claim C10 (which is about
in-place mutation and aliasing): buffers are addressed by index, `allocH`
models a fresh allocation (`data.slice` and `new Float32Array(chunk)` both
allocate), and `writeBuf` models an in-place overwrite. -/
structure Heap where
  bufs : List (List ℝ)

def allocH (h : Heap) (c : List ℝ) : Heap × ℕ := (⟨h.bufs ++ [c]⟩, h.bufs.length)

def readBuf (h : Heap) (i : ℕ) : List ℝ := h.bufs.getD i []

def writeBuf (h : Heap) (i : ℕ) (c : List ℝ) : Heap := ⟨h.bufs.set i c⟩

/-- Contents left in the `real` argument buffer after `getMagnitudeSpectrum`
runs on it (lines 54-57): in-place Hanning windowing followed by the in-place
FFT, so entry `i` ends as the real part of FFT output `i`.  (The fft recursion
allocates fresh even/odd copies at every level and writes nothing else.) -/
def magEffectReal (c : List ℝ) : List ℝ :=
  (List.range 2048).map fun i => (fft 11 (windowedFrame 2048 (fun t => c.getD t 0)) i).re

/-- Contents left in the `imag` buffer allocated by `getMagnitudeSpectrum`. -/
def magEffectImag (c : List ℝ) : List ℝ :=
  (List.range 2048).map fun i => (fft 11 (windowedFrame 2048 (fun t => c.getD t 0)) i).im

/-- Heap effect of one frame body (lines 86-98): slice the chunk out of the
data buffer into a fresh buffer (`data.slice` copies), and for gated frames
(`rms > 0.01`) allocate a fresh copy of the chunk (`new Float32Array(chunk)`)
plus a zero-filled `imag` buffer, and overwrite both of those in place with
the windowed FFT results, exactly the footprint of `getMagnitudeSpectrum`. -/
def stepH (h : Heap) (chunk : List ℝ) : Heap :=
  let h1 := (allocH h chunk).1
  let chunkId := (allocH h chunk).2
  if rmsOf (readBuf h1 chunkId) > 0.01 then
    let copy := readBuf h1 chunkId
    let h2a := (allocH h1 copy).1
    let copyId := (allocH h1 copy).2
    let h2b := (allocH h2a (List.replicate 2048 0)).1
    let imagId := (allocH h2a (List.replicate 2048 0)).2
    writeBuf (writeBuf h2b copyId (magEffectReal copy)) imagId (magEffectImag copy)
  else h1

/-- Heap effect of the whole per-frame analysis loop (line 85): the frame
features themselves are pure functions of the buffers read, so only the heap
is threaded here. -/
def loopH (len dataId : ℕ) (h : Heap) (i : ℕ) : Heap :=
  if hc : i + 2048 < len then
    loopH len dataId (stepH h (((readBuf h dataId).drop i).take 2048)) (i + 1024)
  else h
termination_by len - i
decreasing_by omega

/-! ## Theorems -/

theorem maxPeak_step_eq_max (m s : ℝ) :
    (if |s| > m then |s| else m) = max m |s| := by
  rcases le_or_lt |s| m with h | h
  · rw [if_neg (not_lt.2 h), max_eq_left h]
  · rw [if_pos h, max_eq_right h.le]

theorem maxPeak_eq_foldl_max (l : List ℝ) :
    maxPeak l = l.foldl (fun m s => max m |s|) 0 := by
  unfold maxPeak
  congr 1
  funext m s
  exact maxPeak_step_eq_max m s

theorem le_foldl_max (l : List ℝ) : ∀ a : ℝ, a ≤ l.foldl (fun m s => max m |s|) a := by
  induction l with
  | nil => intro a; simp
  | cons x t ih =>
    intro a
    exact le_trans (le_max_left a |x|) (ih (max a |x|))

theorem maxPeak_nonneg (l : List ℝ) : 0 ≤ maxPeak l := by
  rw [maxPeak_eq_foldl_max]
  exact le_foldl_max l 0

theorem foldl_max_map_mul (c : ℝ) (hc : 0 ≤ c) (l : List ℝ) :
    ∀ a : ℝ, (l.map (fun s => s * c)).foldl (fun m s => max m |s|) (a * c) =
      l.foldl (fun m s => max m |s|) a * c := by
  induction l with
  | nil => intro a; simp
  | cons x t ih =>
    intro a
    simp only [List.map_cons, List.foldl_cons]
    rw [abs_mul, abs_of_nonneg hc, ← max_mul_of_nonneg _ _ hc, ih]

theorem maxPeak_map_mul (c : ℝ) (hc : 0 ≤ c) (l : List ℝ) :
    maxPeak (l.map (fun s => s * c)) = maxPeak l * c := by
  rw [maxPeak_eq_foldl_max, maxPeak_eq_foldl_max, ← foldl_max_map_mul c hc l 0, zero_mul]

/-- Claim C6: the normalizer returns a signal of identical length with every
sample multiplied by `0.95 / maxPeak`; a signal whose maximum absolute sample
is 0 is returned unchanged, and otherwise the maximum absolute value of the
output is exactly 0.95. -/
theorem claim_C6_normalizer (input : List ℝ) :
    (normalizeBuffer input).length = input.length ∧
    (maxPeak input = 0 → normalizeBuffer input = input) ∧
    (maxPeak input ≠ 0 →
      normalizeBuffer input = input.map (fun s => s * (0.95 / maxPeak input)) ∧
      maxPeak (normalizeBuffer input) = 0.95) := by
  refine ⟨by simp [normalizeBuffer], ?_, ?_⟩
  · intro h0
    unfold normalizeBuffer
    rw [if_neg (by rw [h0]; exact lt_irrefl 0)]
    simp
  · intro hne
    have hpos : 0 < maxPeak input := lt_of_le_of_ne (maxPeak_nonneg input) (Ne.symm hne)
    have hdef : normalizeBuffer input = input.map (fun s => s * (0.95 / maxPeak input)) := by
      unfold normalizeBuffer
      rw [if_pos hpos]
    refine ⟨hdef, ?_⟩
    rw [hdef, maxPeak_map_mul _ (by positivity) input]
    field_simp

theorem claim_C6_normalizer_witness :
    maxPeak [(1 : ℝ)] ≠ 0 ∧ maxPeak (normalizeBuffer [(1 : ℝ)]) = 0.95 := by
  have h : maxPeak [(1 : ℝ)] ≠ 0 := by
    unfold maxPeak
    norm_num
  exact ⟨h, ((claim_C6_normalizer [(1 : ℝ)]).2.2 h).2⟩

theorem mem_frameLoop (len : ℕ) :
    ∀ i off : ℕ, off ∈ frameLoop len i ↔
      (∃ k, off = i + 1024 * k) ∧ off + 2048 < len := by
  suffices key : ∀ n i off : ℕ, len - i = n →
      (off ∈ frameLoop len i ↔ (∃ k, off = i + 1024 * k) ∧ off + 2048 < len) by
    intro i off
    exact key (len - i) i off rfl
  intro n
  induction n using Nat.strong_induction_on with
  | _ n ih =>
    intro i off hn
    rw [frameLoop]
    split
    · rename_i hcond
      rw [List.mem_cons,
        ih (len - (i + 1024)) (by omega) (i + 1024) off rfl]
      constructor
      · rintro (rfl | ⟨⟨k, rfl⟩, hlt⟩)
        · exact ⟨⟨0, by omega⟩, hcond⟩
        · exact ⟨⟨k + 1, by ring⟩, hlt⟩
      · rintro ⟨⟨k, rfl⟩, hlt⟩
        cases k with
        | zero => left; omega
        | succ k' => right; exact ⟨⟨k', by ring⟩, hlt⟩
    · rename_i hcond
      simp only [List.not_mem_nil, false_iff]
      rintro ⟨⟨k, rfl⟩, hlt⟩
      omega

theorem frameStarts_eq_nil (len : ℕ) (h : len ≤ 2048) : frameStarts len = [] := by
  rw [frameStarts, frameLoop, dif_neg (by omega)]

theorem claim_C3_counterexample :
    (0 : ℕ) + 2048 ≤ 2048 ∧ (0 : ℕ) ∉ frameStarts 2048 := by
  refine ⟨le_refl _, ?_⟩
  rw [frameStarts, frameLoop]
  simp

/-- Claim C3 (amended): the framer produces frames exactly at the offsets
`0, 1024, 2048, …` whose end lies strictly inside the signal
(`offset + 2048 < length`); the frame whose end coincides exactly with the
signal end is dropped, and any signal of length at most 2048 produces zero
frames. -/
theorem claim_C3_framer_amended (len off : ℕ) :
    (off ∈ frameStarts len ↔ (∃ k, off = 1024 * k) ∧ off + 2048 < len) ∧
    (len ≤ 2048 → frameStarts len = []) := by
  constructor
  · rw [frameStarts, mem_frameLoop len 0 off]
    constructor
    · rintro ⟨⟨k, rfl⟩, hlt⟩
      exact ⟨⟨k, by omega⟩, hlt⟩
    · rintro ⟨⟨k, rfl⟩, hlt⟩
      exact ⟨⟨k, by omega⟩, hlt⟩
  · exact frameStarts_eq_nil len

theorem claim_C3_framer_amended_witness :
    (100 : ℕ) ≤ 2048 ∧ frameStarts 100 = [] :=
  ⟨by decide, (claim_C3_framer_amended 100 0).2 (by decide)⟩

/-- Claim C2: the classification score is the sum of exactly the four factor
contributions of the decision table, and the AI classification holds exactly
when the score exceeds 35. -/
theorem claim_C2_classifier (st : GlobalStats) :
    classifierScore st =
      (if st.avgRolloff < 17000 then
        (if st.noiseFloorDb < -75 ∨ st.hasDigitalSilence then (40 : ℤ) else -30)
       else -10) +
      (if st.stdRolloff < 200 then 35 else -20) +
      (if st.hasDigitalSilence then 25 else 0) +
      (if st.rmsCV < 0.4 then 15 else 0) ∧
    (isAI st = true ↔ classifierScore st > 35) := by
  constructor
  · unfold classifierScore
    split_ifs <;> ring
  · simp [isAI]

/-- Claim C7: the reported confidence is `round (60 + min 39 |score|)`, which
equals the integer `60 + min 39 |score|` and always lies between 60 and 99. -/
theorem claim_C7_confidence (st : GlobalStats) :
    confidence st = 60 + min 39 |classifierScore st| ∧
    60 ≤ confidence st ∧ confidence st ≤ 99 := by
  have h : confidence st = 60 + min 39 |classifierScore st| := by
    unfold confidence confidenceReal
    have hcast : ((60 + min 39 |classifierScore st| : ℤ) : ℝ) =
        60 + min 39 |(classifierScore st : ℝ)| := by
      push_cast
      ring
    rw [← hcast, round_intCast]
  have h0 : 0 ≤ min 39 |classifierScore st| :=
    le_min (by norm_num) (abs_nonneg _)
  have h39 : min 39 |classifierScore st| ≤ 39 := min_le_left _ _
  exact ⟨h, by omega, by omega⟩

/-! ### Claim C1: the zero-run scan never flushes a trailing run -/

theorem foldl_zeroRunStep_replicate (n : ℕ) (p : ℕ × ℕ) :
    (List.replicate n (0 : ℝ)).foldl zeroRunStep p = (p.1 + n, p.2) := by
  induction n generalizing p with
  | zero => simp
  | succ n ih =>
    rw [List.replicate_succ, List.foldl_cons]
    have hstep : zeroRunStep p 0 = (p.1 + 1, p.2) := by
      simp [zeroRunStep]
    rw [hstep, ih]
    simp only [Prod.mk.injEq, and_true]
    omega

theorem foldl_maxPeakStep_replicate_zero (n : ℕ) (m : ℝ) (hm : 0 ≤ m) :
    (List.replicate n (0 : ℝ)).foldl (fun m s => if |s| > m then |s| else m) m = m := by
  induction n with
  | zero => simp
  | succ n ih =>
    rw [List.replicate_succ, List.foldl_cons]
    have hstep : (if |(0 : ℝ)| > m then |(0 : ℝ)| else m) = m := by
      rw [abs_zero, if_neg (not_lt.2 hm)]
    rw [hstep, ih]

theorem normalizeBuffer_trailing_zeros :
    normalizeBuffer ((0.95 : ℝ) :: List.replicate 1500 0) =
      (0.95 : ℝ) :: List.replicate 1500 0 := by
  have hmax : maxPeak ((0.95 : ℝ) :: List.replicate 1500 0) = 0.95 := by
    unfold maxPeak
    rw [List.foldl_cons]
    have hstep : (if |(0.95 : ℝ)| > 0 then |(0.95 : ℝ)| else 0) = 0.95 := by
      rw [abs_of_pos (by norm_num), if_pos (by norm_num)]
    rw [hstep]
    exact foldl_maxPeakStep_replicate_zero 1500 0.95 (by norm_num)
  unfold normalizeBuffer
  rw [hmax, if_pos (by norm_num)]
  have hone : (0.95 : ℝ) / 0.95 = 1 := by norm_num
  rw [hone]
  show List.map (fun s : ℝ => s * 1) ((0.95 : ℝ) :: List.replicate 1500 0) = _
  have hid : (fun s : ℝ => s * 1) = id := funext fun s => mul_one s
  rw [hid, List.map_id]

/-- Claim C1 fails on the code: on the normalized signal `0.95` followed by
1500 exact zeros, the longest contiguous zero run is 1500 (> 1000), yet
`hasDigitalSilence` is `false`, because the scan of lines 156-165 folds a run
into `maxZeroRun` only when a nonzero sample follows it, so a run at the very
end of the signal is never counted. -/
theorem claim_C1_code_bug :
    hasDigitalSilence (normalizeBuffer ((0.95 : ℝ) :: List.replicate 1500 0)) = false ∧
    specLongestZeroRun (normalizeBuffer ((0.95 : ℝ) :: List.replicate 1500 0)) = 1500 ∧
    1000 < specLongestZeroRun (normalizeBuffer ((0.95 : ℝ) :: List.replicate 1500 0)) := by
  have hscan : (((0.95 : ℝ) :: List.replicate 1500 0).foldl zeroRunStep (0, 0)) = (1500, 0) := by
    rw [List.foldl_cons]
    have hstep : zeroRunStep (0, 0) (0.95 : ℝ) = (0, 0) := by
      simp only [zeroRunStep]
      rw [if_neg (by norm_num)]
      simp
    rw [hstep, foldl_zeroRunStep_replicate]
  refine ⟨?_, ?_, ?_⟩
  · rw [normalizeBuffer_trailing_zeros]
    unfold hasDigitalSilence maxZeroRun
    rw [hscan]
    simp
  · rw [normalizeBuffer_trailing_zeros]
    unfold specLongestZeroRun
    rw [hscan]
    simp
  · rw [normalizeBuffer_trailing_zeros]
    unfold specLongestZeroRun
    rw [hscan]
    simp

/-! ### Claim C5: noise floor is the minimum qualifying frame RMS -/

theorem minStep_eq (m r : ℝ) :
    (if r > 1e-5 ∧ r < m then r else m) = if r > 1e-5 then min m r else m := by
  rcases lt_or_le (1e-5 : ℝ) r with h1 | h1
  · rcases lt_or_le r m with h2 | h2
    · rw [if_pos ⟨h1, h2⟩, if_pos h1, min_eq_right h2.le]
    · rw [if_neg (by rintro ⟨_, hh⟩; exact absurd hh (not_lt.2 h2)), if_pos h1,
        min_eq_left h2]
  · rw [if_neg (by rintro ⟨hh, _⟩; exact absurd hh (not_lt.2 h1)), if_neg (not_lt.2 h1)]

theorem foldl_minStep_eq_filter (l : List ℝ) : ∀ a : ℝ,
    l.foldl (fun m r => if r > 1e-5 ∧ r < m then r else m) a =
      (l.filter (fun r => decide (r > 1e-5))).foldl min a := by
  induction l with
  | nil => intro a; simp
  | cons x t ih =>
    intro a
    rw [List.foldl_cons, minStep_eq]
    by_cases hx : x > 1e-5
    · rw [if_pos hx, List.filter_cons_of_pos (by simpa using hx), List.foldl_cons, ih]
    · rw [if_neg hx, List.filter_cons_of_neg (by simpa using hx), ih]

theorem foldl_min_eq_getD (l : List ℝ) (a b : ℝ) (hb : b < a)
    (hl : ∀ r ∈ l, r ≤ b) : l.foldl min a = l.min?.getD a := by
  cases l with
  | nil => simp
  | cons x t =>
    have hx : x ≤ a := le_of_lt (lt_of_le_of_lt (hl x (List.mem_cons_self x t)) hb)
    rw [List.foldl_cons, min_eq_right hx, List.min?_cons']
    rfl

theorem mem_le_foldl_max (l : List ℝ) : ∀ (a x : ℝ), x ∈ l →
    |x| ≤ l.foldl (fun m s => max m |s|) a := by
  induction l with
  | nil => intro a x hx; cases hx
  | cons y t ih =>
    intro a x hx
    rw [List.foldl_cons]
    rcases List.mem_cons.1 hx with rfl | hxt
    · exact le_trans (le_max_right a |x|) (le_foldl_max t (max a |x|))
    · exact ih (max a |y|) x hxt

theorem abs_le_maxPeak (input : List ℝ) (x : ℝ) (hx : x ∈ input) :
    |x| ≤ maxPeak input := by
  rw [maxPeak_eq_foldl_max]
  exact mem_le_foldl_max input 0 x hx

theorem abs_le_of_mem_normalize (input : List ℝ) (s : ℝ)
    (hs : s ∈ normalizeBuffer input) : |s| ≤ 0.95 := by
  unfold normalizeBuffer at hs
  rw [List.mem_map] at hs
  obtain ⟨x, hx, rfl⟩ := hs
  by_cases hpos : maxPeak input > 0
  · rw [if_pos hpos, abs_mul,
      abs_of_pos (show (0 : ℝ) < 0.95 / maxPeak input by positivity)]
    calc |x| * (0.95 / maxPeak input)
        ≤ maxPeak input * (0.95 / maxPeak input) := by
          exact mul_le_mul_of_nonneg_right (abs_le_maxPeak input x hx) (by positivity)
      _ = 0.95 := by field_simp
  · have h0 : maxPeak input = 0 :=
      le_antisymm (not_lt.1 hpos) (maxPeak_nonneg input)
    have hx0 : |x| = 0 := le_antisymm (h0 ▸ abs_le_maxPeak input x hx) (abs_nonneg x)
    rw [if_neg hpos, mul_one, hx0]
    norm_num

theorem sum_sq_le (l : List ℝ) (b : ℝ) (h : ∀ s ∈ l, |s| ≤ b) :
    (l.map (fun s => s * s)).sum ≤ l.length * b ^ 2 := by
  induction l with
  | nil => simp
  | cons x t ih =>
    have hx : |x| ≤ b := h x (List.mem_cons_self x t)
    have hb : 0 ≤ b := le_trans (abs_nonneg x) hx
    have hxx : x * x ≤ b ^ 2 := by
      calc x * x = |x| * |x| := (abs_mul_abs_self x).symm
        _ ≤ b * b := mul_le_mul hx hx (abs_nonneg x) hb
        _ = b ^ 2 := (sq b).symm
    have ht : (t.map (fun s => s * s)).sum ≤ t.length * b ^ 2 :=
      ih (fun s hs => h s (List.mem_cons_of_mem x hs))
    simp only [List.map_cons, List.sum_cons, List.length_cons]
    push_cast
    linarith

theorem rmsOf_le_of_bounded (chunk : List ℝ) (hlen : chunk.length ≤ 2048)
    (h : ∀ s ∈ chunk, |s| ≤ 0.95) : rmsOf chunk ≤ 0.95 := by
  unfold rmsOf
  have h1 : (chunk.map (fun s => s * s)).sum ≤ 2048 * 0.95 ^ 2 := by
    calc (chunk.map (fun s => s * s)).sum
        ≤ chunk.length * 0.95 ^ 2 := sum_sq_le chunk 0.95 h
      _ ≤ 2048 * 0.95 ^ 2 := by
          have : (chunk.length : ℝ) ≤ 2048 := by exact_mod_cast hlen
          nlinarith
  have h2 : (chunk.map (fun s => s * s)).sum / 2048 ≤ 0.95 ^ 2 := by linarith
  calc Real.sqrt ((chunk.map (fun s => s * s)).sum / 2048)
      ≤ Real.sqrt (0.95 ^ 2) := Real.sqrt_le_sqrt h2
    _ = 0.95 := Real.sqrt_sq (by norm_num)

theorem frames_chunk_shape (data : List ℝ) (chunk : List ℝ)
    (hc : chunk ∈ frames data) : chunk.length ≤ 2048 ∧ ∀ s ∈ chunk, s ∈ data := by
  unfold frames at hc
  rw [List.mem_map] at hc
  obtain ⟨i, _, rfl⟩ := hc
  constructor
  · rw [List.length_take]
    exact min_le_left _ _
  · intro s hs
    exact List.mem_of_mem_drop (List.mem_of_mem_take hs)

/-- Claim C5: `minGlobalRMS` over the normalized signal is exactly the minimum
of the frame RMS values exceeding `1e-5`, with fallback 1 when no frame
qualifies, and the noise floor is `20·log10` of it plus `1e-9`. -/
theorem claim_C5_noise_floor (input : List ℝ) :
    minGlobalRMS (normalizeBuffer input) =
      ((frameRMS (normalizeBuffer input)).filter
        (fun r => decide (r > 1e-5))).min?.getD 1 ∧
    noiseFloorDb (normalizeBuffer input) =
      20 * Real.logb 10 (minGlobalRMS (normalizeBuffer input) + 1e-9) := by
  refine ⟨?_, rfl⟩
  unfold minGlobalRMS
  rw [foldl_minStep_eq_filter]
  refine foldl_min_eq_getD _ _ 0.95 (by norm_num) ?_
  intro r hr
  rw [List.mem_filter] at hr
  obtain ⟨hrm, _⟩ := hr
  rw [frameRMS, List.mem_map] at hrm
  obtain ⟨chunk, hchunk, rfl⟩ := hrm
  obtain ⟨hlen, hmem⟩ := frames_chunk_shape _ chunk hchunk
  exact rmsOf_le_of_bounded chunk hlen
    (fun s hs => abs_le_of_mem_normalize input s (hmem s hs))

/-! ### Claim C9: inputs shorter than one frame -/

/-- Claim C9: a signal shorter than 2048 samples yields zero frames, and the
gated aggregates `avgRolloff`, `stdRolloff`, `avgCentroid` all default to 0
through the divide-by-`(length || 1)` fallback. -/
theorem claim_C9_short_input (sampleRate : ℝ) (data : List ℝ)
    (h : data.length < 2048) :
    (frames data).length = 0 ∧ avgRolloff sampleRate data = 0 ∧
    stdRolloff sampleRate data = 0 ∧ avgCentroid sampleRate data = 0 := by
  have hnil : frameStarts data.length = [] := frameStarts_eq_nil _ (le_of_lt h)
  have hframes : frames data = [] := by
    unfold frames
    rw [hnil]
    rfl
  have hroll : frameRolloffs sampleRate data = [] := by
    unfold frameRolloffs
    rw [hframes]
    rfl
  have hcent : frameCentroids sampleRate data = [] := by
    unfold frameCentroids
    rw [hframes]
    rfl
  refine ⟨by rw [hframes]; rfl, ?_, ?_, ?_⟩
  · unfold avgRolloff
    rw [hroll]
    simp [orOne]
  · unfold stdRolloff varRolloff avgRolloff
    rw [hroll]
    simp [orOne]
  · unfold avgCentroid
    rw [hcent]
    simp [orOne]

theorem claim_C9_short_input_witness :
    ([] : List ℝ).length < 2048 ∧
    ((frames ([] : List ℝ)).length = 0 ∧ avgRolloff 44100 ([] : List ℝ) = 0 ∧
      stdRolloff 44100 ([] : List ℝ) = 0 ∧ avgCentroid 44100 ([] : List ℝ) = 0) :=
  ⟨by simp, claim_C9_short_input 44100 [] (by simp)⟩

/-! ### Claim C8: spectral flatness lies in (0, 1] -/

theorem list_sum_map_le (l : List ℝ) (f g : ℝ → ℝ) (h : ∀ x ∈ l, f x ≤ g x) :
    (l.map f).sum ≤ (l.map g).sum := by
  induction l with
  | nil => simp
  | cons x t ih =>
    simp only [List.map_cons, List.sum_cons]
    have h1 := h x (List.mem_cons_self x t)
    have h2 := ih fun y hy => h y (List.mem_cons_of_mem x hy)
    linarith

theorem sum_map_affine (l : List ℝ) (A c : ℝ) :
    (l.map (fun m => (m + 1e-10) / A - 1 + c)).sum =
      (l.map (fun m => m + 1e-10)).sum / A - l.length + l.length * c := by
  induction l with
  | nil => simp
  | cons x t ih =>
    simp only [List.map_cons, List.sum_cons, List.length_cons]
    rw [ih]
    push_cast
    ring

theorem flatnessOf_pos_le_one (l : List ℝ) (hne : l ≠ [])
    (h : ∀ m ∈ l, 0 ≤ m) : 0 < flatnessOf l ∧ flatnessOf l ≤ 1 := by
  have hn : (0 : ℝ) < l.length := by
    cases l with
    | nil => exact absurd rfl hne
    | cons x t => simp only [List.length_cons]; positivity
  have hvalpos : ∀ m ∈ l, (0 : ℝ) < m + 1e-10 := fun m hm => by
    have := h m hm
    norm_num
    linarith
  have hSpos : 0 < (l.map (fun m => m + 1e-10)).sum := by
    apply List.sum_pos
    · intro x hx
      rw [List.mem_map] at hx
      obtain ⟨m, hm, rfl⟩ := hx
      exact hvalpos m hm
    · simpa using hne
  set n : ℝ := (l.length : ℝ) with hn_def
  set S : ℝ := (l.map (fun m => m + 1e-10)).sum with hS_def
  set L : ℝ := (l.map (fun m => Real.log (m + 1e-10))).sum with hL_def
  have hApos : 0 < S / n := div_pos hSpos hn
  have key : L ≤ n * Real.log (S / n) := by
    have h1 : ∀ m ∈ l, Real.log (m + 1e-10) ≤
        (m + 1e-10) / (S / n) - 1 + Real.log (S / n) := by
      intro m hm
      have hv := hvalpos m hm
      have hlog : Real.log ((m + 1e-10) / (S / n)) ≤ (m + 1e-10) / (S / n) - 1 :=
        Real.log_le_sub_one_of_pos (div_pos hv hApos)
      rw [Real.log_div (ne_of_gt hv) (ne_of_gt hApos)] at hlog
      linarith
    have h2 : L ≤ (l.map (fun m => (m + 1e-10) / (S / n) - 1 + Real.log (S / n))).sum :=
      list_sum_map_le l _ _ h1
    rw [sum_map_affine l (S / n) (Real.log (S / n))] at h2
    have hSA : S / (S / n) = n := by
      field_simp
    rw [← hS_def, ← hn_def] at h2
    rw [hSA] at h2
    linarith
  have hflat : flatnessOf l = Real.exp (L / n) / (S / n + 1e-10) := rfl
  have hden : (0 : ℝ) < S / n + 1e-10 := by
    norm_num
    linarith
  constructor
  · rw [hflat]
    exact div_pos (Real.exp_pos _) hden
  · rw [hflat]
    rw [div_le_one hden]
    have hLn : L / n ≤ Real.log (S / n) := by
      rw [div_le_iff₀ hn]
      linarith [key]
    calc Real.exp (L / n) ≤ Real.exp (Real.log (S / n)) := Real.exp_le_exp.2 hLn
      _ = S / n := Real.exp_log hApos
      _ ≤ S / n + 1e-10 := by norm_num

/-- Claim C8: for every frame passing the voicing gate (`rms > 0.01`), the
spectral flatness computed from its magnitude spectrum is strictly positive
and at most 1. -/
theorem claim_C8_flatness (chunk : List ℝ) (_hgate : rmsOf chunk > 0.01) :
    0 < flatnessOf (frameSpectrum chunk) ∧ flatnessOf (frameSpectrum chunk) ≤ 1 := by
  apply flatnessOf_pos_le_one
  · apply List.ne_nil_of_length_pos
    unfold frameSpectrum getMagnitudeSpectrum
    rw [List.length_map, List.length_range]
    norm_num
  · intro m hm
    unfold frameSpectrum getMagnitudeSpectrum at hm
    rw [List.mem_map] at hm
    obtain ⟨j, _, rfl⟩ := hm
    exact Complex.abs.nonneg _

theorem claim_C8_flatness_witness :
    rmsOf [(1 : ℝ)] > 0.01 ∧
    (0 < flatnessOf (frameSpectrum [(1 : ℝ)]) ∧
      flatnessOf (frameSpectrum [(1 : ℝ)]) ≤ 1) := by
  have hg : rmsOf [(1 : ℝ)] > 0.01 := by
    unfold rmsOf
    have hsum : (([(1 : ℝ)]).map (fun s => s * s)).sum / 2048 = 1 / 2048 := by
      norm_num
    rw [hsum]
    rw [show (0.01 : ℝ) = Real.sqrt (0.01 ^ 2) by rw [Real.sqrt_sq (by norm_num)]]
    exact Real.sqrt_lt_sqrt (by norm_num) (by norm_num)
  exact ⟨hg, claim_C8_flatness [(1 : ℝ)] hg⟩

/-! ### Claim C4: the FFT computes the discrete Fourier transform -/

theorem twiddle_eq_exp (n k : ℕ) :
    twiddle n k = Complex.exp (-2 * (Real.pi : ℂ) * Complex.I * k / n) := by
  have harg : (-2 * (Real.pi : ℂ) * Complex.I * k / n) =
      ((-2 * Real.pi * k / n : ℝ) : ℂ) * Complex.I := by
    push_cast
    ring
  rw [harg]
  apply Complex.ext
  · rw [Complex.exp_ofReal_mul_I_re]
    rfl
  · rw [Complex.exp_ofReal_mul_I_im]
    rfl

theorem cexp_nat_mul (i : ℕ) : Complex.exp (-2 * (Real.pi : ℂ) * Complex.I * i) = 1 := by
  have h := Complex.exp_int_mul_two_pi_mul_I (-(i : ℤ))
  have harg : ((-(i : ℤ) : ℤ) : ℂ) * (2 * (Real.pi : ℂ) * Complex.I) =
      -2 * (Real.pi : ℂ) * Complex.I * i := by
    push_cast
    ring
  rw [harg] at h
  exact h

theorem cexp_neg_pi : Complex.exp (-((Real.pi : ℂ) * Complex.I)) = -1 := by
  rw [Complex.exp_neg, Complex.exp_pi_mul_I]
  norm_num

theorem sum_range_even_odd (f : ℕ → ℂ) (h : ℕ) :
    ∑ m ∈ Finset.range (2 * h), f m =
      ∑ i ∈ Finset.range h, f (2 * i) + ∑ i ∈ Finset.range h, f (2 * i + 1) := by
  induction h with
  | zero => simp
  | succ h ih =>
    have h2 : 2 * (h + 1) = (2 * h) + 1 + 1 := by ring
    rw [h2, Finset.sum_range_succ, Finset.sum_range_succ, ih,
      Finset.sum_range_succ, Finset.sum_range_succ]
    ring

theorem fft_eq_dftSpec : ∀ (k : ℕ) (x : ℕ → ℂ) (j : ℕ), j < 2 ^ k →
    fft k x j = dftSpec (2 ^ k) x j := by
  intro k
  induction k with
  | zero =>
    intro x j hj
    have hj0 : j = 0 := by omega
    subst hj0
    simp [fft, dftSpec]
  | succ k ih =>
    intro x j hj
    have h2k : ((2 : ℂ)) ^ k ≠ 0 := pow_ne_zero _ two_ne_zero
    have hsplit : (2 : ℕ) ^ (k + 1) = 2 * 2 ^ k := by ring
    by_cases hcase : j < 2 ^ k
    · -- lower-half butterfly output
      have hfft : fft (k + 1) x j =
          fft k (fun i => x (2 * i)) j +
            twiddle (2 ^ (k + 1)) j * fft k (fun i => x (2 * i + 1)) j := by
        simp only [fft, if_pos hcase]
      rw [hfft, ih _ j hcase, ih _ j hcase]
      unfold dftSpec
      rw [hsplit, sum_range_even_odd
        (fun m => x m * Complex.exp (-2 * Real.pi * Complex.I * m * j / ((2 * 2 ^ k : ℕ) : ℂ)))]
      congr 1
      · -- even half
        apply Finset.sum_congr rfl
        intro i _
        congr 1
        apply congrArg
        push_cast
        field_simp
        ring
      · -- odd half
        rw [twiddle_eq_exp, Finset.mul_sum]
        apply Finset.sum_congr rfl
        intro i _
        rw [← mul_assoc, mul_comm (Complex.exp _) (x (2 * i + 1)), mul_assoc,
          ← Complex.exp_add]
        congr 1
        apply congrArg
        push_cast
        field_simp
        ring
    · -- upper-half butterfly output
      have hr : j - 2 ^ k < 2 ^ k := by
        rw [hsplit] at hj
        omega
      have hfft : fft (k + 1) x j =
          fft k (fun i => x (2 * i)) (j - 2 ^ k) -
            twiddle (2 ^ (k + 1)) (j - 2 ^ k) * fft k (fun i => x (2 * i + 1)) (j - 2 ^ k) := by
        simp only [fft, if_neg hcase]
      rw [hfft, ih _ _ hr, ih _ _ hr]
      set r := j - 2 ^ k with hr_def
      have hjr : j = 2 ^ k + r := by omega
      unfold dftSpec
      rw [hsplit, sum_range_even_odd
        (fun m => x m * Complex.exp (-2 * Real.pi * Complex.I * m * j / ((2 * 2 ^ k : ℕ) : ℂ)))]
      have heven : ∀ i ∈ Finset.range (2 ^ k),
          x (2 * i) * Complex.exp (-2 * Real.pi * Complex.I * (2 * i : ℕ) * j
              / ((2 * 2 ^ k : ℕ) : ℂ)) =
          x (2 * i) * Complex.exp (-2 * Real.pi * Complex.I * i * r / ((2 ^ k : ℕ) : ℂ)) := by
        intro i _
        congr 1
        rw [show (-2 * (Real.pi : ℂ) * Complex.I * ((2 * i : ℕ) : ℂ) * j / ((2 * 2 ^ k : ℕ) : ℂ)) =
            -2 * Real.pi * Complex.I * i * r / ((2 ^ k : ℕ) : ℂ) +
              -2 * Real.pi * Complex.I * i from ?_, Complex.exp_add, cexp_nat_mul, mul_one]
        rw [hjr]
        push_cast
        field_simp
        ring
      have hodd : ∀ i ∈ Finset.range (2 ^ k),
          x (2 * i + 1) * Complex.exp (-2 * Real.pi * Complex.I * (2 * i + 1 : ℕ) * j
              / ((2 * 2 ^ k : ℕ) : ℂ)) =
          -(Complex.exp (-2 * Real.pi * Complex.I * r / ((2 * 2 ^ k : ℕ) : ℂ)) *
              (x (2 * i + 1) *
                Complex.exp (-2 * Real.pi * Complex.I * i * r / ((2 ^ k : ℕ) : ℂ)))) := by
        intro i _
        rw [show (-2 * (Real.pi : ℂ) * Complex.I * ((2 * i + 1 : ℕ) : ℂ) * j
              / ((2 * 2 ^ k : ℕ) : ℂ)) =
            (-2 * Real.pi * Complex.I * i +
              (-((Real.pi : ℂ) * Complex.I) +
                (-2 * Real.pi * Complex.I * r / ((2 * 2 ^ k : ℕ) : ℂ) +
                  -2 * Real.pi * Complex.I * i * r / ((2 ^ k : ℕ) : ℂ)))) from ?_,
          Complex.exp_add, Complex.exp_add, Complex.exp_add, cexp_nat_mul, cexp_neg_pi]
        · ring
        · rw [hjr]
          push_cast
          field_simp
          ring
      rw [Finset.sum_congr rfl heven, Finset.sum_congr rfl hodd]
      rw [Finset.sum_neg_distrib, ← Finset.mul_sum]
      rw [twiddle_eq_exp]
      simp only [sub_eq_add_neg]

/-- Claim C4: the recursive radix-2 FFT computes exactly the discrete Fourier
transform `Σ_j x[j]·exp(-2πi·j·k/n)` on every power-of-two length, and
`getMagnitudeSpectrum` returns a spectrum of length `n/2` whose `j`-th entry
is the modulus of DFT bin `j` of the Hanning-windowed frame. -/
theorem claim_C4_fft_dft (k j : ℕ) (z : ℕ → ℂ) (x : ℕ → ℝ) :
    (j < 2 ^ k → fft k z j = dftSpec (2 ^ k) z j) ∧
    (getMagnitudeSpectrum k x).length = 2 ^ k / 2 ∧
    (j < 2 ^ k / 2 →
      (getMagnitudeSpectrum k x).getD j 0 =
        Complex.abs (dftSpec (2 ^ k) (windowedFrame (2 ^ k) x) j)) := by
  refine ⟨fun hj => fft_eq_dftSpec k z j hj, ?_, ?_⟩
  · unfold getMagnitudeSpectrum
    rw [List.length_map, List.length_range]
  · intro hj
    unfold getMagnitudeSpectrum
    rw [List.getD_eq_getElem?_getD, List.getElem?_map, List.getElem?_range hj]
    simp only [Option.map_some', Option.getD_some]
    rw [fft_eq_dftSpec k _ j (lt_of_lt_of_le hj (Nat.div_le_self _ _))]

theorem claim_C4_fft_dft_witness :
    ((0 : ℕ) < 2 ^ 1 ∧ fft 1 (fun _ => 1) 0 = dftSpec (2 ^ 1) (fun _ => 1) 0) ∧
    ((0 : ℕ) < 2 ^ 1 / 2 ∧
      (getMagnitudeSpectrum 1 (fun _ => 1)).getD 0 0 =
        Complex.abs (dftSpec (2 ^ 1) (windowedFrame (2 ^ 1) (fun _ => 1)) 0)) :=
  ⟨⟨by norm_num, (claim_C4_fft_dft 1 0 (fun _ => 1) (fun _ => 1)).1 (by norm_num)⟩,
   ⟨by norm_num, (claim_C4_fft_dft 1 0 (fun _ => 1) (fun _ => 1)).2.2 (by norm_num)⟩⟩

/-! ### Claim C10: per-frame in-place mutation never touches the data buffer -/

theorem readBuf_allocH (h : Heap) (c : List ℝ) (i : ℕ) (hi : i < h.bufs.length) :
    readBuf (allocH h c).1 i = readBuf h i := by
  unfold readBuf allocH
  exact List.getD_append _ _ _ _ hi

theorem readBuf_writeBuf_ne (h : Heap) (j : ℕ) (c : List ℝ) (i : ℕ) (hne : j ≠ i) :
    readBuf (writeBuf h j c) i = readBuf h i := by
  unfold readBuf writeBuf
  rw [List.getD_eq_getElem?_getD, List.getD_eq_getElem?_getD]
  rw [show ((h.bufs.set j c)[i]? : Option (List ℝ)) = h.bufs[i]? from
    List.getElem?_set_ne hne]

theorem allocH_length (h : Heap) (c : List ℝ) :
    ((allocH h c).1).bufs.length = h.bufs.length + 1 := by
  simp [allocH]

theorem stepH_facts (h : Heap) (chunk : List ℝ) (dataId : ℕ)
    (hd : dataId < h.bufs.length) :
    readBuf (stepH h chunk) dataId = readBuf h dataId ∧
    dataId < (stepH h chunk).bufs.length := by
  simp only [stepH]
  have hlen1 : ((allocH h chunk).1).bufs.length = h.bufs.length + 1 :=
    allocH_length h chunk
  have hread1 : readBuf (allocH h chunk).1 dataId = readBuf h dataId :=
    readBuf_allocH h chunk dataId hd
  by_cases hg : rmsOf (readBuf (allocH h chunk).1 (allocH h chunk).2) > 0.01
  · rw [if_pos hg]
    set h1 := (allocH h chunk).1 with hh1
    set copy := readBuf h1 (allocH h chunk).2 with hcopy
    set h2a := (allocH h1 copy).1 with hh2a
    have hlen2a : h2a.bufs.length = h1.bufs.length + 1 :=
      allocH_length h1 copy
    have hread2a : readBuf h2a dataId = readBuf h1 dataId :=
      readBuf_allocH h1 copy dataId (by omega)
    set h2b := (allocH h2a (List.replicate 2048 0)).1 with hh2b
    have hlen2b : h2b.bufs.length = h2a.bufs.length + 1 :=
      allocH_length h2a (List.replicate 2048 0)
    have hread2b : readBuf h2b dataId = readBuf h2a dataId :=
      readBuf_allocH h2a _ dataId (by omega)
    have hcopyId : (allocH h1 copy).2 = h1.bufs.length := rfl
    have himagId : (allocH h2a (List.replicate 2048 0)).2 = h2a.bufs.length := rfl
    constructor
    · rw [readBuf_writeBuf_ne _ _ _ dataId (by rw [himagId]; omega),
        readBuf_writeBuf_ne _ _ _ dataId (by rw [hcopyId]; omega),
        hread2b, hread2a, hread1]
    · simp only [writeBuf, List.length_set]
      omega
  · rw [if_neg hg]
    exact ⟨hread1, by omega⟩

theorem loopH_preserves (len dataId : ℕ) : ∀ (n i : ℕ) (h : Heap), len - i = n →
    dataId < h.bufs.length →
    readBuf (loopH len dataId h i) dataId = readBuf h dataId := by
  intro n
  induction n using Nat.strong_induction_on with
  | _ n ih =>
    intro i h hn hd
    rw [loopH]
    split
    · rename_i hc
      obtain ⟨hstep, hlen⟩ :=
        stepH_facts h (((readBuf h dataId).drop i).take 2048) dataId hd
      rw [ih (len - (i + 1024)) (by omega) (i + 1024) _ rfl hlen, hstep]
    · rfl

/-- Claim C10: the frame loop passes every frame to the spectral transform as
a fresh copy of the sliced chunk, so the in-place Hanning windowing and FFT
writes land only in per-frame buffers; after the whole loop the data buffer
still holds exactly the normalizer's output, and the zero-run scan that runs
afterwards therefore reads exactly those samples. -/
theorem claim_C10_frame_effect (input : List ℝ) :
    readBuf (loopH (normalizeBuffer input).length 0 ⟨[normalizeBuffer input]⟩ 0) 0 =
      normalizeBuffer input ∧
    maxZeroRun
        (readBuf (loopH (normalizeBuffer input).length 0 ⟨[normalizeBuffer input]⟩ 0) 0) =
      maxZeroRun (normalizeBuffer input) := by
  have h0 : readBuf ⟨[normalizeBuffer input]⟩ 0 = normalizeBuffer input := rfl
  have h := loopH_preserves (normalizeBuffer input).length 0
    ((normalizeBuffer input).length - 0) 0 ⟨[normalizeBuffer input]⟩ rfl (by simp)
  rw [h0] at h
  exact ⟨h, by rw [h]⟩

end FinalSignals
